import Mathlib

/-!
A verification development for the `muserstory` repository.

This file contains a shallow embedding of

* the markdown "record codec" of `internal/domain/markdownfile.go`
  (`ParseMarkdownFileContent` and `MarkdownFile.WriteToFile`),
* the story writer of `internal/application/userStoryService.go`
  (`WriteUserStoriesToFile`, which differs from the domain serializer in
  sorting category headers and in normalizing the category tag), and
* the JSON-backed repository of
  `internal/adapters/jsonUserStoryRepository.go`,

together with theorems about these definitions.

Modelling conventions:

* Go strings are modelled as `List Char` (`Str`).  All relevant string
  operations (`strings.TrimSpace`, `strings.HasPrefix`, `strings.LastIndex`,
  slicing, `bufio.Scanner` line splitting) are defined below, faithful to
  their Go behaviour on the ASCII texts the codec manipulates.
* The YAML metadata codec (`gopkg.in/yaml.v3`) and the JSON codec
  (`encoding/json`) are external libraries, not repository code; the
  embedded functions take the corresponding encode/decode functions as
  explicit parameters, and theorems quantify over them.  Concrete simple
  instances are provided for closed evaluations.
* `uuid.NewString()` is an effectful fresh-name source; the parser takes a
  function `Nat → Str` giving the n-th generated identifier.
* The Go `map[string]...` values are modelled as association lists in
  insertion order; Go map iteration order is unspecified, the association
  list order is one admissible order, and no theorem below depends on it
  beyond what the code guarantees.
-/

namespace Muserstory

/-- Go strings, as lists of characters. -/
abbrev Str := List Char

/-! ### String primitives (models of Go's `strings` / `bufio` functions) -/

/-- Whitespace recognised by `strings.TrimSpace` (ASCII fragment of
`unicode.IsSpace`; the codec's delimiters and markers are all ASCII). -/
def isSpaceChar (c : Char) : Bool :=
  c = ' ' || c = '\t' || c = '\n' || c = '\x0b' || c = '\x0c' || c = '\r'

/-- Model of `strings.TrimSpace`: drop whitespace from both ends. -/
def trimSpace (s : Str) : Str :=
  ((s.dropWhile isSpaceChar).reverse.dropWhile isSpaceChar).reverse

/-- Model of `strings.LastIndex`: the index of the last occurrence of `p`
in `s`, or `none` (Go returns `-1`). -/
def lastIndexOf (p : Str) : Str → Option Nat
  | [] => if p.isEmpty then some 0 else none
  | c :: t =>
    match lastIndexOf p t with
    | some j => some (j + 1)
    | none => if p.isPrefixOf (c :: t) then some 0 else none

/-- Model of `strings.Contains`. -/
def containsSub (p : Str) : Str → Bool
  | [] => p.isEmpty
  | c :: t => p.isPrefixOf (c :: t) || containsSub p t

/-- Go slice expression `s[a:b]`. -/
def substrRange (s : Str) (a b : Nat) : Str := (s.take b).drop a

/-- Raw split of a string at every newline character; always returns at
least one (possibly empty) part. -/
def splitNl : Str → List Str
  | [] => [[]]
  | c :: t =>
    if c = '\n' then [] :: splitNl t
    else
      match splitNl t with
      | [] => [[c]]
      | h :: r => (c :: h) :: r

/-- `bufio.ScanLines` strips one trailing carriage return from each line. -/
def dropCR (s : Str) : Str := if s.getLast? = some '\r' then s.dropLast else s

/-- Model of reading all lines with `bufio.Scanner` (split at `'\n'`, strip
a trailing `'\r'` per line, no empty final token for a trailing newline). -/
def splitLines (s : Str) : List Str :=
  let parts := splitNl s
  (if parts.getLast? = some [] then parts.dropLast else parts).map dropCR

/-- The lines of `ls`, each terminated by a newline, concatenated (the shape
in which the serializer writes line-oriented output). -/
def joinNlTerm (ls : List Str) : Str := ls.flatMap (fun l => l ++ ['\n'])

/-! ### Domain data (internal/domain/userstory.go) -/

/-- `domain.UserStory`. -/
structure UserStory where
  ID : Str
  Description : Str
  Category : Str
deriving DecidableEq, Repr

/-- `domain.Project`. -/
structure Project where
  ID : Str
  Name : Str
  Summary : Str
  UserStories : List UserStory
deriving DecidableEq, Repr

/-- Decoded metadata mapping (the embedding restricts the YAML values to
string scalars; the codec never inspects the values). -/
abbrev MetaMap := List (Str × Str)

/-- `domain.MarkdownFile`. -/
structure MarkdownFile where
  Metadata : MetaMap
  Summary : Str
  Stories : List UserStory
deriving DecidableEq, Repr

/-! ### Fixed literals of the codec -/

/-- The metadata delimiter line `"---"`. -/
def delimStr : Str := "---".toList

/-- The summary header token `"# Summary"`. -/
def summaryHeaderStr : Str := "# Summary".toList

/-- The bullet marker `"- "`. -/
def bulletStr : Str := "- ".toList

/-- The bold marker `"**"`. -/
def boldStr : Str := "**".toList

/-- The category tag opener `"[Category: "`. -/
def catTag : Str := "[Category: ".toList

/-- The default category label `"Uncategorized"`. -/
def uncategorizedStr : Str := "Uncategorized".toList

/-! ### Parser (internal/domain/markdownfile.go, `ParseMarkdownFileContent`)

The Go function is a single line-oriented loop mutating the flags
`isReadingMetadata` / `isReadingSummary`, a metadata byte buffer, a summary
string builder and the list of story-content lines, followed by a second
loop extracting one record from every line whose trimmed form starts with
`"- "`.  The embedding makes the loop state explicit. -/

/-- The part of the parser state untouched by the metadata branches
(`isReadingSummary`, `summaryBuilder`, `storyContentLines`). -/
structure Core where
  isReadingSummary : Bool
  summaryBuilder : Str
  storyContentLines : List Str
deriving DecidableEq, Repr

/-- The full loop state of `ParseMarkdownFileContent`. -/
structure ParseState where
  isReadingMetadata : Bool
  metadataBuffer : Str
  metadata : MetaMap
  core : Core
deriving DecidableEq, Repr

/-- State transition for one non-delimiter line processed outside a
metadata block (the `"# Summary"` check, the summary mode and the default
story-content branch of the loop body, lines 53-70 of markdownfile.go).
The summary builder appends a `'\n'` separator only when nonempty, exactly
like `strings.Builder` in the Go code. -/
def coreStep (c : Core) (line : Str) : Core :=
  let trimmed := trimSpace line
  if summaryHeaderStr.isPrefixOf trimmed then
    { c with isReadingSummary := true }
  else if c.isReadingSummary then
    if bulletStr.isPrefixOf trimmed || boldStr.isPrefixOf trimmed then
      { c with isReadingSummary := false,
               storyContentLines := c.storyContentLines ++ [line] }
    else
      { c with summaryBuilder :=
          c.summaryBuilder ++
            (if c.summaryBuilder.length > 0 then ['\n'] else []) ++ line }
  else
    { c with storyContentLines := c.storyContentLines ++ [line] }

/-- One iteration of the scanning loop of `ParseMarkdownFileContent`
(lines 31-71 of markdownfile.go).  `decode` models `yaml.Unmarshal` into a
`map[string]interface{}`; a decode failure aborts the parse. -/
def processLine (decode : Str → Except Unit MetaMap) (st : ParseState)
    (line : Str) : Except Unit ParseState :=
  let trimmed := trimSpace line
  if trimmed = delimStr then
    if st.isReadingMetadata = false then
      .ok { st with isReadingMetadata := true }
    else
      match decode st.metadataBuffer with
      | .error e => .error e
      | .ok m => .ok { st with isReadingMetadata := false, metadata := m }
  else if st.isReadingMetadata then
    .ok { st with metadataBuffer := st.metadataBuffer ++ line ++ ['\n'] }
  else
    .ok { st with core := coreStep st.core line }

/-- The scanning loop over all lines. -/
def processLines (decode : Str → Except Unit MetaMap) (st : ParseState) :
    List Str → Except Unit ParseState
  | [] => .ok st
  | l :: ls =>
    match processLine decode st l with
    | .error e => .error e
    | .ok st' => processLines decode st' ls

/-- The initial loop state (`var` zero values in Go). -/
def initState : ParseState := ⟨false, [], [], ⟨false, [], []⟩⟩

/-- The record extraction applied to one story-content line (lines 78-99 of
markdownfile.go): a line counts only if its trimmed form starts with
`"- "`; the payload is split at the last `"[Category: "` when the last
`"]"` is the final character, otherwise the whole payload is the
description and the category defaults to `"Uncategorized"`. -/
def parseStoryLine (line : Str) : Option (Str × Str) :=
  let trimmed := trimSpace line
  if bulletStr.isPrefixOf trimmed then
    let content := trimmed.drop 2
    match lastIndexOf catTag content, lastIndexOf [']'] content with
    | some catStart, some catEnd =>
      if catStart < catEnd ∧ catEnd = content.length - 1 then
        some (trimSpace (content.take catStart),
              substrRange content (catStart + catTag.length) catEnd)
      else some (content, uncategorizedStr)
    | _, _ => some (content, uncategorizedStr)
  else none

/-- Attach the freshly generated identifiers (`uuid.NewString()` per
created record, modelled by `uuidGen n` for the n-th record). -/
def mkStories (uuidGen : Nat → Str) (pairs : List (Str × Str)) :
    List UserStory :=
  pairs.enum.map (fun p => ⟨uuidGen p.1, p.2.1, p.2.2⟩)

/-- `ParseMarkdownFileContent`, over a pre-split list of lines. -/
def parseLines (decode : Str → Except Unit MetaMap) (uuidGen : Nat → Str)
    (ls : List Str) : Except Unit MarkdownFile :=
  match processLines decode initState ls with
  | .error e => .error e
  | .ok st =>
    .ok { Metadata := st.metadata,
          Summary := trimSpace st.core.summaryBuilder,
          Stories := mkStories uuidGen
            (st.core.storyContentLines.filterMap parseStoryLine) }

/-- `ParseMarkdownFileContent` (markdownfile.go lines 20-107). -/
def ParseMarkdownFileContent (decode : Str → Except Unit MetaMap)
    (uuidGen : Nat → Str) (content : Str) : Except Unit MarkdownFile :=
  parseLines decode uuidGen (splitLines content)

/-! ### Serializer (internal/domain/markdownfile.go, `WriteToFile`)

`WriteToFile` writes to a file through a buffered writer; the embedding
produces the written byte content as a `Str`. -/

/-- The category used for grouping: empty normalizes to
`"Uncategorized"` (markdownfile.go lines 148-151). -/
def normCat (c : Str) : Str := if c = [] then uncategorizedStr else c

/-- The bullet line written for one story (markdownfile.go line 163):
note that the tag carries the raw `story.Category`, not the normalized
grouping label. -/
def bulletLine (s : UserStory) : Str :=
  bulletStr ++ s.Description ++ [' '] ++ catTag ++ s.Category ++ [']']

/-- Association table from category label to the stories appended under it
(models `storiesByCategory map[string][]UserStory`). -/
def lookupTbl : List (Str × List UserStory) → Str → Option (List UserStory)
  | [], _ => none
  | (k, v) :: t, c => if k = c then some v else lookupTbl t c

/-- Append one story under label `c` (Go `storiesByCategory[cat] =
append(storiesByCategory[cat], story)`). -/
def tblAppend : List (Str × List UserStory) → Str → UserStory →
    List (Str × List UserStory)
  | [], c, s => [(c, [s])]
  | (k, v) :: t, c, s =>
    if k = c then (k, v ++ [s]) :: t else (k, v) :: tblAppend t c s

/-- One iteration of the grouping loop (markdownfile.go lines 147-156):
record the label in `categoryOrder` on first sight, then append. -/
def insertStory (acc : List Str × List (Str × List UserStory))
    (st : UserStory) : List Str × List (Str × List UserStory) :=
  let c := normCat st.Category
  (if (lookupTbl acc.2 c).isSome then acc.1 else acc.1 ++ [c],
   tblAppend acc.2 c st)

/-- The grouping pass: category order of first appearance plus the table. -/
def groupStories (stories : List UserStory) :
    List Str × List (Str × List UserStory) :=
  stories.foldl insertStory ([], [])

/-- The header line `**<label>**`. -/
def headerLine (c : Str) : Str := boldStr ++ c ++ boldStr

/-- The bytes written for one category group (markdownfile.go lines
158-171): header line, one bullet line per story, a blank line. -/
def groupChunk (c : Str) (members : List UserStory) : Str :=
  headerLine c ++ ['\n'] ++ joinNlTerm (members.map bulletLine) ++ ['\n']

/-- The bytes written for the story section (markdownfile.go lines
143-172). -/
def storiesChunk (stories : List UserStory) : Str :=
  if stories.length > 0 then
    let g := groupStories stories
    g.1.flatMap (fun c => groupChunk c ((lookupTbl g.2 c).getD []))
  else []

/-- Lexicographic comparison of strings by code point (model of Go's
`<` on strings restricted to the ASCII texts at hand). -/
def strLe : Str → Str → Bool
  | [], _ => true
  | _ :: _, [] => false
  | a :: s, b :: t =>
    if a.toNat < b.toNat then true
    else if b.toNat < a.toNat then false
    else strLe s t

/-- Insert into a sorted list (used to model `sort.Strings`, whose result
is the unique sorted rearrangement of a list of strings). -/
def insertSorted (x : Str) : List Str → List Str
  | [] => [x]
  | y :: t => if strLe x y then x :: y :: t else y :: insertSorted x t

/-- Model of `sort.Strings`: sort lexicographically ascending. -/
def sortStrs (l : List Str) : List Str := l.foldr insertSorted []

/-- The bullet line of `WriteUserStoriesToFile` (userStoryService.go lines
186-190): the tag carries the normalized category. -/
def serviceBulletLine (s : UserStory) : Str :=
  bulletStr ++ s.Description ++ [' '] ++ catTag ++ normCat s.Category ++ [']']

/-- The story section written by `WriteUserStoriesToFile`
(userStoryService.go lines 155-198): same grouping, sorted category order,
normalized tag. -/
def serviceStoriesChunk (stories : List UserStory) : Str :=
  if stories.length > 0 then
    let g := groupStories stories
    (sortStrs g.1).flatMap (fun c =>
      headerLine c ++ ['\n'] ++
        joinNlTerm (((lookupTbl g.2 c).getD []).map serviceBulletLine) ++
        ['\n'])
  else []

/-! ### Reference descriptions of the serializer's line output
(used to state theorems; proven equal to the chunk definitions). -/

/-- The distinct elements of a list in order of first appearance. -/
def firstAppear : List Str → List Str
  | [] => []
  | c :: t => c :: (firstAppear t).filter (fun x => x ≠ c)

/-- The grouping keys of a story list. -/
def catKeys (stories : List UserStory) : List Str :=
  stories.map (fun s => normCat s.Category)

/-- The lines of the story section, described independently of the
grouping loop: groups in first-appearance order, members in input order. -/
def storyLinesOf (stories : List UserStory) : List Str :=
  (firstAppear (catKeys stories)).flatMap (fun c =>
    headerLine c ::
      (stories.filter (fun s => normCat s.Category = c)).map bulletLine
      ++ [[]])

/-- The lines the spec's `Serialize` step 3 claims for the story section:
group labels sorted lexicographically ascending (this is what C2 asserts
of the codec serializer; compare with `storyLinesOf`). -/
def claimSortedStoryLines (stories : List UserStory) : List Str :=
  (sortStrs (firstAppear (catKeys stories))).flatMap (fun c =>
    headerLine c ::
      (stories.filter (fun s => normCat s.Category = c)).map bulletLine
      ++ [[]])

/-- Error values surfaced by the repository (Go uses `fmt.Errorf`). -/
inductive RepoError
  | invalidAggregate
  | notFound
  | corruptSnapshot
deriving DecidableEq, Repr

/-- Association-list lookup, modelling Go map read `m[id]`. -/
def lookupProj : List (Str × Project) → Str → Option Project
  | [], _ => none
  | (k, v) :: t, id => if k = id then some v else lookupProj t id

/-- Association-list insertion, modelling Go map write `m[id] = p`
(wholesale replacement of an existing entry). -/
def insertProj : List (Str × Project) → Str → Project →
    List (Str × Project)
  | [], id, p => [(id, p)]
  | (k, v) :: t, id, p =>
    if k = id then (k, p) :: t else (k, v) :: insertProj t id p

/-- The values of the map, in association-list order (one admissible Go
map iteration order). -/
def projectValues (m : List (Str × Project)) : List Project := m.map (·.2)

/-- The repository state. -/
structure JsonRepo where
  projects : List (Str × Project)
  /-- Decoded content of the backing snapshot file (absent file ≈ `[]`). -/
  fileProjects : List Project
  /-- Whether the periodic auto-save ticker is running. -/
  tickerActive : Bool
deriving DecidableEq, Repr

/-- `NewJsonUserStoryRepository` + `loadFromFile` (lines 21-64): read the
backing file once; absent file ⇒ empty map; empty file ⇒ empty map;
non-empty undecodable file ⇒ construction fails.  `decode` models
`json.Unmarshal` into `[]domain.Project`; `file` is the byte content of
the file, `none` when the file does not exist. -/
def NewJsonUserStoryRepository (decode : Str → Option (List Project))
    (file : Option Str) : Except RepoError JsonRepo :=
  match file with
  | none => .ok ⟨[], [], true⟩
  | some bytes =>
    if bytes = [] then .ok ⟨[], [], true⟩
    else
      match decode bytes with
      | none => .error .corruptSnapshot
      | some ps =>
        .ok ⟨ps.foldl (fun m p => insertProj m p.ID p) [], ps, true⟩

/-- `StoreProject` (lines 104-113): reject an empty identifier before
touching the map, otherwise insert or replace.  The Go method mutates the
receiver and returns an error; the embedding returns the new state and the
optional error. -/
def StoreProject (p : Project) (r : JsonRepo) : JsonRepo × Option RepoError :=
  if p.ID = [] then (r, some .invalidAggregate)
  else ({ r with projects := insertProj r.projects p.ID p }, none)

/-- `GetProjects` (lines 115-124): copy the map values into a fresh slice. -/
def GetProjects (r : JsonRepo) : List Project := projectValues r.projects

/-- `GetProjectByID` (lines 126-135). -/
def GetProjectByID (id : Str) (r : JsonRepo) : Except RepoError Project :=
  match lookupProj r.projects id with
  | some p => .ok p
  | none => .error .notFound

/-- `saveToFile` (lines 66-84): serialize the whole map to the backing
file (full overwrite). -/
def saveToFile (r : JsonRepo) : JsonRepo :=
  { r with fileProjects := projectValues r.projects }

/-- One firing of the auto-save ticker (lines 86-92). -/
def autoSaveTick (r : JsonRepo) : JsonRepo :=
  if r.tickerActive then saveToFile r else r

/-- `StopAutoSave` (lines 100-102) together with the `doneChan` branch of
`autoSave` (lines 93-95): the goroutine stops the ticker and returns.
No write to the backing file occurs on this path. -/
def StopAutoSave (r : JsonRepo) : JsonRepo := { r with tickerActive := false }

/-! ### Reference-level repository model (for the aliasing claim C9)

Go's `GetProjects` copies each `Project` struct by value, but the struct
contains `UserStories []UserStory`, a slice header pointing into a shared
backing array: element assignments through the returned copy are visible
in the store.  This model makes the slice handle explicit: `storiesRef`
is an index into a heap of backing arrays. -/

/-- A project whose story slice is a handle into the heap. -/
structure ProjectRef where
  ID : Str
  Name : Str
  Summary : Str
  storiesRef : Nat
deriving DecidableEq, Repr

/-- The repository state with the slice heap made explicit. -/
structure RefRepo where
  projects : List (Str × ProjectRef)
  heap : List (List UserStory)
deriving DecidableEq, Repr

/-- Association-list lookup for `ProjectRef`. -/
def lookupProjRef : List (Str × ProjectRef) → Str → Option ProjectRef
  | [], _ => none
  | (k, v) :: t, id => if k = id then some v else lookupProjRef t id

/-- `GetProjects` in the reference model: the returned structs are copies,
but they carry the same `storiesRef` handles as the stored ones. -/
def refGetProjects (r : RefRepo) : List ProjectRef := r.projects.map (·.2)

/-- `GetProjectByID` in the reference model. -/
def refGetProjectByID (id : Str) (r : RefRepo) : Except RepoError ProjectRef :=
  match lookupProjRef r.projects id with
  | some p => .ok p
  | none => .error .notFound

/-- Dereference a story-slice handle (reading `p.UserStories`). -/
def readStories (r : RefRepo) (h : Nat) : List UserStory := r.heap.getD h []

/-- The caller's in-place element assignment `slice[i] = v` performed
through any alias of the slice with handle `h`. -/
def writeStoryAt (r : RefRepo) (h i : Nat) (v : UserStory) : RefRepo :=
  { r with heap := r.heap.set h ((r.heap.getD h []).set i v) }

/-! ### Concrete instances used in closed evaluations -/

/-- A simple concrete metadata decoder (splits `"k: v"` lines); stands in
for `yaml.Unmarshal` where a concrete decoder is needed. -/
def decModel (s : Str) : Except Unit MetaMap :=
  .ok ((splitLines s).filterMap (fun l =>
    match lastIndexOf (':' :: [' ']) l with
    | some j => some (l.take j, l.drop (j + 2))
    | none => none))

/-- A concrete identifier source. -/
def uuidModel (n : Nat) : Str := (Nat.toDigits 10 n).map id

/-- C4's input: a metadata block opened on the first line and never
closed (`"---\nx: y"`). -/
def c4Input : Str := "---\nx: y".toList

/-- C5's input: a bullet line, then a delimiter line that is not the first
line of the document, then another bullet line (`"- a\n---\n- b"`). -/
def c5Input : Str := "- a\n---\n- b".toList

/-- Two stories whose categories appear in the order `"B"`, `"A"`. -/
def c2Stories : List UserStory :=
  [⟨"1".toList, "b1".toList, "B".toList⟩,
   ⟨"2".toList, "a1".toList, "A".toList⟩]

/-- A document with a single record whose category is empty. -/
def c3Doc : MarkdownFile :=
  ⟨[], [], [⟨"1".toList, "a".toList, []⟩]⟩

/-- A concrete project with one story. -/
def exProj : Project :=
  ⟨"p1".toList, "proj".toList, "sum".toList,
   [⟨"s1".toList, "story".toList, "Cat".toList⟩]⟩

/-- The reference-model story list before mutation. -/
def exStoryA : UserStory := ⟨"s1".toList, "story one".toList, "X".toList⟩

/-- A replacement story used to mutate through the returned copy. -/
def exStoryB : UserStory := ⟨"s2".toList, "story two".toList, "Y".toList⟩

/-- A stored project in the reference model, with handle `0`. -/
def exProjRef : ProjectRef := ⟨"p1".toList, "proj".toList, "sum".toList, 0⟩

/-- The reference-model repository: one project, heap cell `0` holds its
stories. -/
def exRefRepo : RefRepo := ⟨[("p1".toList, exProjRef)], [[exStoryA]]⟩

/-! ## Lemmas about the string primitives -/

theorem splitNl_ne_nil (s : Str) : splitNl s ≠ [] := by
  match s with
  | [] => simp [splitNl]
  | c :: t =>
    simp only [splitNl]
    split
    · simp
    · match h : splitNl t with
      | [] => simp
      | h' :: r => simp

theorem splitNl_cons_nl (t : Str) : splitNl ('\n' :: t) = [] :: splitNl t := by
  simp [splitNl]

theorem splitNl_cons_of_ne (c : Char) (t : Str) (hc : c ≠ '\n') (h : Str)
    (r : List Str) (ht : splitNl t = h :: r) :
    splitNl (c :: t) = (c :: h) :: r := by
  simp [splitNl, if_neg hc, ht]

theorem splitNl_append_nl (xs ys : Str) :
    splitNl (xs ++ '\n' :: ys) = splitNl xs ++ splitNl ys := by
  induction xs with
  | nil => simp [splitNl]
  | cons c t ih =>
    by_cases hc : c = '\n'
    · subst hc
      rw [List.cons_append, splitNl_cons_nl, splitNl_cons_nl, ih]
      rfl
    · match h : splitNl t with
      | [] => exact absurd h (splitNl_ne_nil t)
      | h' :: r =>
        rw [h] at ih
        rw [List.cons_append,
          splitNl_cons_of_ne c _ hc h' (r ++ splitNl ys) (by rw [ih]; rfl),
          splitNl_cons_of_ne c t hc h' r h]
        rfl

theorem splitNl_no_nl (s : Str) (h : '\n' ∉ s) : splitNl s = [s] := by
  induction s with
  | nil => rfl
  | cons c t ih =>
    simp only [List.mem_cons, not_or] at h
    have hc : ¬ c = '\n' := fun he => h.1 he.symm
    simp only [splitNl, if_neg hc, ih h.2]

theorem splitNl_joinNlTerm_append (ls : List Str) (rest : Str)
    (h : ∀ l ∈ ls, '\n' ∉ l) :
    splitNl (joinNlTerm ls ++ rest) = ls ++ splitNl rest := by
  induction ls with
  | nil => simp [joinNlTerm]
  | cons l t ih =>
    have hl : '\n' ∉ l := h l (List.mem_cons_self l t)
    have ht : ∀ x ∈ t, '\n' ∉ x := fun x hx => h x (List.mem_cons_of_mem l hx)
    have : joinNlTerm (l :: t) ++ rest = l ++ '\n' :: (joinNlTerm t ++ rest) := by
      simp [joinNlTerm]
    rw [this, splitNl_append_nl, splitNl_no_nl l hl, ih ht]
    simp

theorem trimSpace_nil : trimSpace [] = [] := rfl

theorem isPrefixOf_length_le {p s : Str} (h : p.isPrefixOf s = true) :
    p.length ≤ s.length :=
  (List.isPrefixOf_iff_prefix.mp h).length_le

theorem not_isPrefixOf_of_head {a b : Char} (p s : Str) (hab : a ≠ b) :
    (a :: p).isPrefixOf (b :: s) = false := by
  have : (a :: p).isPrefixOf (b :: s) = (a == b && p.isPrefixOf s) := rfl
  rw [this]
  have hb : (a == b) = false := by
    simp only [beq_eq_false_iff_ne, ne_eq]
    exact hab
  rw [hb, Bool.false_and]

theorem isPrefixOf_nil_right {p : Str} (h : p.isPrefixOf [] = true) :
    p = [] := by
  cases p with
  | nil => rfl
  | cons a as => exact absurd h (by simp [List.isPrefixOf])

theorem lastIndexOf_isPrefixOf {p s : Str} {j : Nat}
    (h : lastIndexOf p s = some j) : p.isPrefixOf (s.drop j) = true := by
  induction s generalizing j with
  | nil =>
    simp only [lastIndexOf] at h
    split at h
    · rename_i hp
      cases h
      rw [List.isEmpty_iff] at hp
      subst hp
      rfl
    · cases h
  | cons c t ih =>
    cases hh : lastIndexOf p t with
    | some j' =>
      simp only [lastIndexOf, hh] at h
      have hj : j' + 1 = j := Option.some.inj h
      subst hj
      rw [List.drop_succ_cons]
      exact ih hh
    | none =>
      simp only [lastIndexOf, hh] at h
      split at h
      · rename_i hp
        have hj : (0 : Nat) = j := Option.some.inj h
        subst hj
        rwa [List.drop_zero]
      · cases h

theorem lastIndexOf_add_length_le {p s : Str} {j : Nat} (hp : p ≠ [])
    (h : lastIndexOf p s = some j) : j + p.length ≤ s.length := by
  have h1 := lastIndexOf_isPrefixOf h
  have h2 := isPrefixOf_length_le h1
  rw [List.length_drop] at h2
  have hp1 : 1 ≤ p.length := by
    cases p with
    | nil => exact absurd rfl hp
    | cons a as => simp
  omega

theorem lastIndexOf_none_of {p : Str} (s : Str)
    (h : ∀ i, p.isPrefixOf (s.drop i) = false) : lastIndexOf p s = none := by
  induction s with
  | nil =>
    have h0 := h 0
    rw [List.drop_nil] at h0
    cases p with
    | nil => exact absurd h0 (by simp [List.isPrefixOf])
    | cons a as => simp [lastIndexOf]
  | cons c t ih =>
    have ht : ∀ i, p.isPrefixOf (t.drop i) = false := by
      intro i
      have := h (i + 1)
      rwa [List.drop_succ_cons] at this
    have h0 := h 0
    rw [List.drop_zero] at h0
    simp only [lastIndexOf, ih ht, h0]
    rfl

theorem lastIndexOf_eq_some_of_maximal {p s : Str} {j : Nat}
    (hocc : p.isPrefixOf (s.drop j) = true)
    (hmax : ∀ k, j < k → p.isPrefixOf (s.drop k) = false) :
    lastIndexOf p s = some j := by
  induction s generalizing j with
  | nil =>
    rw [List.drop_nil] at hocc
    have hp : p = [] := isPrefixOf_nil_right hocc
    subst hp
    have := hmax (j + 1) (Nat.lt_succ_self j)
    rw [List.drop_nil] at this
    exact absurd this (by simp [List.isPrefixOf])
  | cons c t ih =>
    cases j with
    | zero =>
      have hnone : lastIndexOf p t = none := by
        apply lastIndexOf_none_of
        intro i
        have := hmax (i + 1) (Nat.succ_pos i)
        rwa [List.drop_succ_cons] at this
      rw [List.drop_zero] at hocc
      simp only [lastIndexOf, hnone, hocc]
      rfl
    | succ j' =>
      have hocc' : p.isPrefixOf (t.drop j') = true := by
        rwa [List.drop_succ_cons] at hocc
      have hmax' : ∀ k, j' < k → p.isPrefixOf (t.drop k) = false := by
        intro k hk
        have := hmax (k + 1) (Nat.succ_lt_succ hk)
        rwa [List.drop_succ_cons] at this
      simp only [lastIndexOf, ih hocc' hmax']

theorem lastIndexOf_isSome_of_occ {p s : Str} {i : Nat}
    (h : p.isPrefixOf (s.drop i) = true) : (lastIndexOf p s).isSome = true := by
  induction s generalizing i with
  | nil =>
    rw [List.drop_nil] at h
    have hp : p = [] := isPrefixOf_nil_right h
    subst hp
    simp [lastIndexOf]
  | cons c t ih =>
    cases i with
    | zero =>
      rw [List.drop_zero] at h
      simp only [lastIndexOf]
      cases hh : lastIndexOf p t with
      | some j => simp
      | none => simp [h]
    | succ i' =>
      rw [List.drop_succ_cons] at h
      have := ih h
      simp only [lastIndexOf]
      cases hh : lastIndexOf p t with
      | some j => simp
      | none =>
        rw [hh] at this
        simp at this

theorem containsSub_iff_exists {p s : Str} :
    containsSub p s = true ↔ ∃ i, p.isPrefixOf (s.drop i) = true := by
  induction s with
  | nil =>
    simp only [containsSub]
    constructor
    · intro h
      refine ⟨0, ?_⟩
      rw [List.drop_nil]
      rw [List.isEmpty_iff] at h
      subst h
      rfl
    · rintro ⟨i, hi⟩
      rw [List.drop_nil] at hi
      have := isPrefixOf_nil_right hi
      subst this
      rfl
  | cons c t ih =>
    simp only [containsSub, Bool.or_eq_true]
    constructor
    · rintro (h | h)
      · exact ⟨0, by rwa [List.drop_zero]⟩
      · obtain ⟨i, hi⟩ := ih.mp h
        exact ⟨i + 1, by rwa [List.drop_succ_cons]⟩
    · rintro ⟨i, hi⟩
      cases i with
      | zero =>
        left
        rwa [List.drop_zero] at hi
      | succ i' =>
        right
        refine ih.mpr ⟨i', ?_⟩
        rwa [List.drop_succ_cons] at hi

theorem containsSub_iff_lastIndexOf {p s : Str} :
    containsSub p s = true ↔ (lastIndexOf p s).isSome = true := by
  constructor
  · intro h
    obtain ⟨i, hi⟩ := containsSub_iff_exists.mp h
    exact lastIndexOf_isSome_of_occ hi
  · intro h
    cases hh : lastIndexOf p s with
    | none =>
      rw [hh] at h
      simp at h
    | some j => exact containsSub_iff_exists.mpr ⟨j, lastIndexOf_isPrefixOf hh⟩

/-! ## The category tag inside a serialized bullet line -/

theorem catTag_length : catTag.length = 11 := by decide

theorem catTag_ne_nil : catTag ≠ [] := by decide

theorem lastIndexOf_rbracket_concat (s : Str) :
    lastIndexOf [']'] (s ++ [']']) = some s.length := by
  apply lastIndexOf_eq_some_of_maximal
  · rw [List.drop_left]
    rfl
  · intro k hk
    have h1 : (s ++ [']']).drop k = [] := by
      apply List.drop_eq_nil_of_le
      rw [List.length_append, List.length_cons, List.length_nil]
      omega
    rw [h1]
    rfl

theorem lookupTbl_tblAppend_same (tbl : List (Str × List UserStory))
    (c : Str) (s : UserStory) :
    lookupTbl (tblAppend tbl c s) c = some ((lookupTbl tbl c).getD [] ++ [s]) := by
  induction tbl with
  | nil => simp [tblAppend, lookupTbl]
  | cons kv t ih =>
    obtain ⟨k, v⟩ := kv
    by_cases hk : k = c
    · subst hk
      simp [tblAppend, lookupTbl]
    · simp [tblAppend, lookupTbl, hk, ih]

theorem lookupTbl_tblAppend_other (tbl : List (Str × List UserStory))
    (c c' : Str) (s : UserStory) (h : c' ≠ c) :
    lookupTbl (tblAppend tbl c s) c' = lookupTbl tbl c' := by
  induction tbl with
  | nil =>
    have : ¬ c = c' := fun he => h he.symm
    simp [tblAppend, lookupTbl, this]
  | cons kv t ih =>
    obtain ⟨k, v⟩ := kv
    by_cases hk : k = c
    · subst hk
      have : ¬ k = c' := fun he => h he.symm
      simp [tblAppend, lookupTbl, this]
    · by_cases hk' : k = c'
      · subst hk'
        simp [tblAppend, lookupTbl, hk]
      · simp [tblAppend, lookupTbl, hk, hk', ih]

theorem firstAppear_cons (c : Str) (t : List Str) :
    firstAppear (c :: t) = c :: (firstAppear t).filter (fun x => x ≠ c) := rfl

theorem mem_firstAppear {x : Str} {l : List Str} :
    x ∈ firstAppear l ↔ x ∈ l := by
  induction l with
  | nil => simp [firstAppear]
  | cons c t ih =>
    rw [firstAppear_cons]
    by_cases hx : x = c
    · subst hx
      simp
    · simp only [List.mem_cons, List.mem_filter, ih]
      constructor
      · rintro (h | ⟨h, _⟩)
        · exact Or.inl h
        · exact Or.inr h
      · rintro (h | h)
        · exact Or.inl h
        · exact Or.inr ⟨h, by simp [hx]⟩

theorem flatMap_congr_mem {α β : Type} (L : List α) (f g : α → List β)
    (h : ∀ x ∈ L, f x = g x) : L.flatMap f = L.flatMap g := by
  induction L with
  | nil => rfl
  | cons a t ih =>
    simp only [List.flatMap_cons]
    rw [h a (List.mem_cons_self a t), ih (fun x hx => h x (List.mem_cons_of_mem a hx))]

theorem groupFold_spec (l : List UserStory) :
    ∀ (ord : List Str) (tbl : List (Str × List UserStory)),
    (∀ c, (lookupTbl tbl c).isSome = true ↔ c ∈ ord) →
    (l.foldl insertStory (ord, tbl)).1 =
        ord ++ (firstAppear (catKeys l)).filter (fun c => decide (c ∉ ord)) ∧
    ∀ c, lookupTbl (l.foldl insertStory (ord, tbl)).2 c =
        (match lookupTbl tbl c with
        | some v => some (v ++ l.filter (fun s => normCat s.Category = c))
        | none =>
          if c ∈ catKeys l then
            some (l.filter (fun s => normCat s.Category = c))
          else none) := by
  induction l with
  | nil =>
    intro ord tbl hinv
    constructor
    · simp [catKeys, firstAppear]
    · intro c
      simp only [List.foldl_nil]
      cases h : lookupTbl tbl c with
      | some v => simp
      | none => simp [catKeys]
  | cons st t ih =>
    intro ord tbl hinv
    set c0 := normCat st.Category with hc0
    have hstep : (st :: t).foldl insertStory (ord, tbl) =
        t.foldl insertStory (insertStory (ord, tbl) st) := rfl
    set ord' := if (lookupTbl tbl c0).isSome then ord else ord ++ [c0] with hord'
    have hins : insertStory (ord, tbl) st = (ord', tblAppend tbl c0 st) := rfl
    have hinv' : ∀ c, (lookupTbl (tblAppend tbl c0 st) c).isSome = true ↔ c ∈ ord' := by
      intro c
      by_cases hc : c = c0
      · rw [hc, lookupTbl_tblAppend_same]
        simp only [Option.isSome_some, true_iff]
        rw [hord']
        by_cases hs : (lookupTbl tbl c0).isSome
        · rw [if_pos hs]
          exact (hinv c0).mp hs
        · rw [if_neg hs]
          exact List.mem_append_right ord (List.mem_singleton.mpr rfl)
      · rw [lookupTbl_tblAppend_other tbl c0 c st hc]
        rw [hinv c, hord']
        by_cases hs : (lookupTbl tbl c0).isSome
        · rw [if_pos hs]
        · rw [if_neg hs]
          simp only [List.mem_append, List.mem_singleton]
          constructor
          · exact Or.inl
          · rintro (h | h)
            · exact h
            · exact absurd h hc
    obtain ⟨iord, itbl⟩ := ih ord' (tblAppend tbl c0 st) hinv'
    rw [hstep, hins]
    constructor
    · rw [iord]
      have hkeys : catKeys (st :: t) = c0 :: catKeys t := rfl
      rw [hkeys, firstAppear_cons]
      by_cases hs : (lookupTbl tbl c0).isSome
      · have hmem : c0 ∈ ord := (hinv c0).mp hs
        have hord'eq : ord' = ord := by rw [hord', if_pos hs]
        rw [hord'eq]
        have hfilter_c0 : (decide (c0 ∉ ord)) = false := by
          simp [hmem]
        rw [List.filter_cons, hfilter_c0]
        rw [List.filter_filter]
        congr 1
        apply List.filter_congr
        intro x hx
        by_cases hxo : x ∈ ord
        · simp [hxo]
        · have hxc : x ≠ c0 := fun he => hxo (he ▸ hmem)
          simp [hxo, hxc]
      · have hmem : c0 ∉ ord := fun h => hs ((hinv c0).mpr h)
        have hord'eq : ord' = ord ++ [c0] := by rw [hord', if_neg hs]
        rw [hord'eq]
        have hfilter_c0 : (decide (c0 ∉ ord)) = true := by
          simp [hmem]
        rw [List.filter_cons, hfilter_c0]
        rw [List.filter_filter, List.append_assoc, List.singleton_append]
        congr 2
        apply List.filter_congr
        intro x hx
        by_cases hxc : x = c0
        · subst hxc
          simp
        · by_cases hxo : x ∈ ord
          · simp [hxo, hxc]
          · simp [hxo, hxc]
    · intro c
      rw [itbl c]
      by_cases hc : c = c0
      · subst hc
        rw [lookupTbl_tblAppend_same]
        have hfs : (decide (normCat st.Category = c0)) = true := by
          simp [hc0]
        cases h : lookupTbl tbl c0 with
        | some v =>
          simp only [h, Option.getD_some]
          have : List.filter (fun s => decide (normCat s.Category = c0)) (st :: t) =
              st :: List.filter (fun s => decide (normCat s.Category = c0)) t := by
            rw [List.filter_cons, hfs]
            simp
          rw [this, List.append_assoc, List.singleton_append]
        | none =>
          simp only [h, Option.getD_none, List.nil_append]
          have hmem : c0 ∈ catKeys (st :: t) := by
            rw [show catKeys (st :: t) = c0 :: catKeys t from rfl]
            exact List.mem_cons_self _ _
          rw [if_pos hmem]
          have : List.filter (fun s => decide (normCat s.Category = c0)) (st :: t) =
              st :: List.filter (fun s => decide (normCat s.Category = c0)) t := by
            rw [List.filter_cons, hfs]
            simp
          rw [this, List.singleton_append]
      · rw [lookupTbl_tblAppend_other tbl c0 c st hc]
        have hfs : (decide (normCat st.Category = c)) = false := by
          simp only [decide_eq_false_iff_not]
          rw [← hc0]
          exact fun he => hc he.symm
        have hfe : List.filter (fun s => decide (normCat s.Category = c)) (st :: t) =
            List.filter (fun s => decide (normCat s.Category = c)) t := by
          rw [List.filter_cons, hfs]
          simp
        cases h : lookupTbl tbl c with
        | some v => rw [hfe]
        | none =>
          have hmemiff : (c ∈ catKeys (st :: t)) ↔ (c ∈ catKeys t) := by
            rw [show catKeys (st :: t) = c0 :: catKeys t from rfl]
            simp only [List.mem_cons]
            constructor
            · rintro (he | he)
              · exact absurd he.symm (fun x => hc x.symm)
              · exact he
            · exact Or.inr
          rw [hfe]
          by_cases hmem : c ∈ catKeys t
          · rw [if_pos hmem, if_pos (hmemiff.mpr hmem)]
          · rw [if_neg hmem, if_neg (fun hx => hmem (hmemiff.mp hx))]

theorem groupStories_order (l : List UserStory) :
    (groupStories l).1 = firstAppear (catKeys l) := by
  have h := (groupFold_spec l [] [] (by intro c; simp [lookupTbl])).1
  rw [groupStories, h]
  have : List.filter (fun c => decide (c ∉ ([] : List Str))) (firstAppear (catKeys l)) =
      firstAppear (catKeys l) := by
    apply List.filter_eq_self.mpr
    intro a _
    simp
  rw [this, List.nil_append]

theorem groupStories_lookup (l : List UserStory) (c : Str)
    (hc : c ∈ catKeys l) :
    lookupTbl (groupStories l).2 c =
      some (l.filter (fun s => normCat s.Category = c)) := by
  have h := (groupFold_spec l [] [] (by intro c; simp [lookupTbl])).2 c
  rw [groupStories, h]
  simp only [lookupTbl]
  rw [if_pos hc]

/-- The story section of `WriteToFile`, rewritten with the groups in
first-appearance order and each group's members given by a filter. -/
theorem storiesChunk_eq (stories : List UserStory) :
    storiesChunk stories = (firstAppear (catKeys stories)).flatMap
      (fun c => groupChunk c
        (stories.filter (fun s => normCat s.Category = c))) := by
  unfold storiesChunk
  by_cases h : stories.length > 0
  · rw [if_pos h]
    show (groupStories stories).1.flatMap _ = _
    rw [groupStories_order]
    apply flatMap_congr_mem
    intro c hc
    rw [groupStories_lookup stories c (mem_firstAppear.mp hc)]
    rfl
  · rw [if_neg h]
    have : stories = [] := by
      cases stories with
      | nil => rfl
      | cons a t => simp at h
    subst this
    rfl

/-! ## The sorting model (`sort.Strings`) -/

theorem insertSorted_perm (x : Str) (l : List Str) :
    List.Perm (insertSorted x l) (x :: l) := by
  induction l with
  | nil => exact List.Perm.refl _
  | cons y t ih =>
    simp only [insertSorted]
    split
    · exact List.Perm.refl _
    · exact List.Perm.trans (List.Perm.cons y ih) (List.Perm.swap x y t)

theorem sortStrs_perm (l : List Str) : List.Perm (sortStrs l) l := by
  induction l with
  | nil => exact List.Perm.refl _
  | cons x t ih =>
    show List.Perm (insertSorted x (sortStrs t)) (x :: t)
    exact List.Perm.trans (insertSorted_perm x (sortStrs t)) (List.Perm.cons x ih)

theorem mem_sortStrs {x : Str} {l : List Str} : x ∈ sortStrs l ↔ x ∈ l :=
  (sortStrs_perm l).mem_iff

theorem strLe_total (a b : Str) : strLe a b = true ∨ strLe b a = true := by
  induction a generalizing b with
  | nil => exact Or.inl rfl
  | cons x s ih =>
    cases b with
    | nil => exact Or.inr rfl
    | cons y t =>
      rcases Nat.lt_trichotomy x.toNat y.toNat with h | h | h
      · left
        simp [strLe, h]
      · rcases ih t with h2 | h2
        · left
          simp [strLe, h ▸ Nat.lt_irrefl x.toNat, h2]
          omega
        · right
          simp [strLe, h ▸ Nat.lt_irrefl x.toNat, h2]
          omega
      · right
        simp [strLe, h]

theorem strLe_trans {a b c : Str} (h1 : strLe a b = true)
    (h2 : strLe b c = true) : strLe a c = true := by
  induction a generalizing b c with
  | nil => rfl
  | cons x s ih =>
    cases b with
    | nil => exact absurd h1 (by simp [strLe])
    | cons y t =>
      cases c with
      | nil => exact absurd h2 (by simp [strLe])
      | cons z u =>
        simp only [strLe] at h1 h2 ⊢
        split at h1
        · rename_i hxy
          split
          · rfl
          · rename_i hxz
            split
            · rename_i hzx
              exfalso
              split at h2
              · rename_i hyz
                omega
              · rename_i hyz
                split at h2
                · exact Bool.noConfusion h2
                · rename_i hzy
                  omega
            · rename_i hzx
              exfalso
              split at h2
              · rename_i hyz
                omega
              · rename_i hyz
                split at h2
                · exact Bool.noConfusion h2
                · rename_i hzy
                  omega
        · rename_i hxy
          split at h1
          · exact Bool.noConfusion h1
          · rename_i hyx
            have hxyeq : x.toNat = y.toNat := by omega
            split at h2
            · rename_i hyz
              split
              · rfl
              · rename_i hxz
                omega
            · rename_i hyz
              split at h2
              · exact Bool.noConfusion h2
              · rename_i hzy
                have hyzeq : y.toNat = z.toNat := by omega
                split
                · rfl
                · rename_i hxz
                  split
                  · rename_i hzx
                    omega
                  · exact ih h1 h2

/-- Sortedness with respect to `strLe`. -/
def SortedStr (l : List Str) : Prop := l.Pairwise (fun a b => strLe a b = true)

theorem insertSorted_sorted (x : Str) (l : List Str) (h : SortedStr l) :
    SortedStr (insertSorted x l) := by
  induction l with
  | nil => exact List.pairwise_cons.mpr ⟨by simp, List.Pairwise.nil⟩
  | cons y t ih =>
    rw [SortedStr, List.pairwise_cons] at h
    obtain ⟨hy, ht⟩ := h
    simp only [insertSorted]
    split
    · rename_i hxy
      refine List.pairwise_cons.mpr ⟨?_, List.pairwise_cons.mpr ⟨hy, ht⟩⟩
      intro b hb
      rcases List.mem_cons.mp hb with hb | hb
      · subst hb
        exact hxy
      · exact strLe_trans hxy (hy b hb)
    · rename_i hxy
      have hyx : strLe y x = true := by
        rcases strLe_total x y with h | h
        · exact absurd h hxy
        · exact h
      refine List.pairwise_cons.mpr ⟨?_, ih ht⟩
      intro b hb
      rcases List.mem_cons.mp ((insertSorted_perm x t).mem_iff.mp hb) with hb2 | hb2
      · rw [hb2]
        exact hyx
      · exact hy b hb2

theorem sortStrs_sorted (l : List Str) : SortedStr (sortStrs l) := by
  induction l with
  | nil => exact List.Pairwise.nil
  | cons x t ih => exact insertSorted_sorted x (sortStrs t) ih

/-! ## Regrouping by category is a permutation -/

theorem nl_not_mem_bulletLine (s : UserStory) (hd : '\n' ∉ s.Description)
    (hc : '\n' ∉ s.Category) : '\n' ∉ bulletLine s := by
  intro h
  have h2 : bulletLine s =
      '-' :: ' ' :: (s.Description ++ ' ' :: (catTag ++ (s.Category ++ [']']))) := by
    simp [bulletLine, bulletStr]
  rw [h2] at h
  rcases List.mem_cons.mp h with h1 | h1
  · exact absurd h1 (by decide)
  rcases List.mem_cons.mp h1 with h2 | h2
  · exact absurd h2 (by decide)
  rcases List.mem_append.mp h2 with h3 | h3
  · exact hd h3
  rcases List.mem_cons.mp h3 with h4 | h4
  · exact absurd h4 (by decide)
  rcases List.mem_append.mp h4 with h5 | h5
  · exact absurd h5 (by decide)
  rcases List.mem_append.mp h5 with h6 | h6
  · exact hc h6
  · exact absurd h6 (by decide)

theorem nl_not_mem_headerLine (c : Str) (hc : '\n' ∉ c) :
    '\n' ∉ headerLine c := by
  intro h
  have h2 : headerLine c = boldStr ++ (c ++ boldStr) := by
    simp [headerLine]
  rw [h2] at h
  rcases List.mem_append.mp h with h1 | h1
  · exact absurd h1 (by decide)
  rcases List.mem_append.mp h1 with h2 | h2
  · exact hc h2
  · exact absurd h2 (by decide)

theorem getLast?_append_right (u v : Str) (hv : v ≠ []) :
    (u ++ v).getLast? = v.getLast? := by
  rw [List.getLast?_append]
  cases hh : v.getLast? with
  | some x => rfl
  | none =>
    exfalso
    rw [List.getLast?_eq_getLast v hv] at hh
    cases hh

theorem splitNl_groupChunk_append (c : Str) (members : List UserStory)
    (rest : Str) (hc : '\n' ∉ c)
    (hmem : ∀ s ∈ members, '\n' ∉ s.Description ∧ '\n' ∉ s.Category) :
    splitNl (groupChunk c members ++ rest) =
      (headerLine c :: members.map bulletLine ++ [[]]) ++ splitNl rest := by
  have h1 : groupChunk c members ++ rest =
      headerLine c ++ '\n' ::
        (joinNlTerm (members.map bulletLine) ++ ('\n' :: rest)) := by
    simp [groupChunk]
  rw [h1, splitNl_append_nl,
    splitNl_no_nl (headerLine c) (nl_not_mem_headerLine c hc),
    splitNl_joinNlTerm_append _ _ ?hbl, splitNl_cons_nl]
  case hbl =>
    intro l hl
    rw [List.mem_map] at hl
    obtain ⟨s, hs, rfl⟩ := hl
    exact nl_not_mem_bulletLine s (hmem s hs).1 (hmem s hs).2
  simp

theorem splitNl_storyRegion_aux (ks : List Str)
    (f : Str → List UserStory) (rest : Str)
    (hks : ∀ c ∈ ks, '\n' ∉ c)
    (hf : ∀ c ∈ ks, ∀ s ∈ f c, '\n' ∉ s.Description ∧ '\n' ∉ s.Category) :
    splitNl (ks.flatMap (fun c => groupChunk c (f c)) ++ rest) =
      ks.flatMap (fun c => headerLine c :: (f c).map bulletLine ++ [[]]) ++
        splitNl rest := by
  induction ks with
  | nil => simp
  | cons c ks' ih =>
    rw [List.flatMap_cons, List.flatMap_cons, List.append_assoc,
      splitNl_groupChunk_append c (f c) _ (hks c (List.mem_cons_self c ks'))
        (hf c (List.mem_cons_self c ks')),
      ih (fun x hx => hks x (List.mem_cons_of_mem c hx))
        (fun x hx => hf x (List.mem_cons_of_mem c hx))]
    simp

theorem nl_not_mem_normCat (s : UserStory) (hc : '\n' ∉ s.Category) :
    '\n' ∉ normCat s.Category := by
  rw [normCat]
  split
  · decide
  · exact hc

theorem splitNl_storiesChunk_append (stories : List UserStory) (rest : Str)
    (hst : ∀ s ∈ stories, '\n' ∉ s.Description ∧ '\n' ∉ s.Category) :
    splitNl (storiesChunk stories ++ rest) =
      storyLinesOf stories ++ splitNl rest := by
  rw [storiesChunk_eq, storyLinesOf]
  apply splitNl_storyRegion_aux
  · intro c hc
    rw [mem_firstAppear] at hc
    rw [catKeys, List.mem_map] at hc
    obtain ⟨s, hs, rfl⟩ := hc
    exact nl_not_mem_normCat s (hst s hs).2
  · intro c _ s hs
    rw [List.mem_filter] at hs
    exact hst s hs.1

theorem processLine_open (decode : Str → Except Unit MetaMap)
    (st : ParseState) (line : Str) (h : trimSpace line = delimStr)
    (hm : st.isReadingMetadata = false) :
    processLine decode st line = .ok { st with isReadingMetadata := true } := by
  simp [processLine, h, hm]

theorem processLine_close (decode : Str → Except Unit MetaMap)
    (st : ParseState) (line : Str) (h : trimSpace line = delimStr)
    (hm : st.isReadingMetadata = true) {m : MetaMap}
    (hdec : decode st.metadataBuffer = .ok m) :
    processLine decode st line =
      .ok { st with isReadingMetadata := false, metadata := m } := by
  simp [processLine, h, hm, hdec]

theorem processLine_core (decode : Str → Except Unit MetaMap)
    (st : ParseState) (line : Str) (hm : st.isReadingMetadata = false)
    (hd : trimSpace line ≠ delimStr) :
    processLine decode st line = .ok { st with core := coreStep st.core line } := by
  simp [processLine, hd, hm]

theorem processLine_buffer (decode : Str → Except Unit MetaMap)
    (st : ParseState) (line : Str) (hm : st.isReadingMetadata = true)
    (hd : trimSpace line ≠ delimStr) :
    processLine decode st line =
      .ok { st with metadataBuffer := st.metadataBuffer ++ line ++ ['\n'] } := by
  simp [processLine, hd, hm]

theorem processLines_append (decode : Str → Except Unit MetaMap)
    (st : ParseState) (ls1 ls2 : List Str) :
    processLines decode st (ls1 ++ ls2) =
      match processLines decode st ls1 with
      | .error e => .error e
      | .ok st' => processLines decode st' ls2 := by
  induction ls1 generalizing st with
  | nil => rfl
  | cons l t ih =>
    rw [List.cons_append]
    simp only [processLines]
    cases processLine decode st l with
    | error e => rfl
    | ok st' => exact ih st'

theorem processLines_nodelim (decode : Str → Except Unit MetaMap)
    (st : ParseState) (ls : List Str) (hm : st.isReadingMetadata = false)
    (h : ∀ l ∈ ls, trimSpace l ≠ delimStr) :
    processLines decode st ls = .ok { st with core := ls.foldl coreStep st.core } := by
  induction ls generalizing st with
  | nil => rfl
  | cons l t ih =>
    simp only [processLines]
    rw [processLine_core decode st l hm (h l (List.mem_cons_self l t))]
    show processLines decode _ t = _
    exact ih { st with core := coreStep st.core l } hm
      (fun x hx => h x (List.mem_cons_of_mem l hx))

theorem processLines_buffer (decode : Str → Except Unit MetaMap)
    (st : ParseState) (ls : List Str) (hm : st.isReadingMetadata = true)
    (h : ∀ l ∈ ls, trimSpace l ≠ delimStr) :
    processLines decode st ls =
      .ok { st with metadataBuffer := st.metadataBuffer ++ joinNlTerm ls } := by
  induction ls generalizing st with
  | nil =>
    show Except.ok st = _
    rw [show joinNlTerm [] = [] from rfl, List.append_nil]
  | cons l t ih =>
    simp only [processLines]
    rw [processLine_buffer decode st l hm (h l (List.mem_cons_self l t))]
    show processLines decode _ t = _
    rw [ih { st with metadataBuffer := st.metadataBuffer ++ l ++ ['\n'] } hm
      (fun x hx => h x (List.mem_cons_of_mem l hx))]
    have hb : (st.metadataBuffer ++ l ++ ['\n']) ++ joinNlTerm t =
        st.metadataBuffer ++ joinNlTerm (l :: t) := by
      simp [joinNlTerm]
    rw [hb]

/-! ### The non-metadata loop state -/

theorem coreStep_plain (c : Core) (line : Str) (hs : c.isReadingSummary = false)
    (hh : summaryHeaderStr.isPrefixOf (trimSpace line) = false) :
    coreStep c line = { c with storyContentLines := c.storyContentLines ++ [line] } := by
  simp [coreStep, hh, hs]

theorem trimSpace_delimStr : trimSpace delimStr = delimStr := by decide

theorem bulletLine_bullet (s : UserStory) :
    bulletStr.isPrefixOf (bulletLine s) = true := by
  rw [show bulletLine s = bulletStr ++
    (s.Description ++ [' '] ++ catTag ++ s.Category ++ [']']) by simp [bulletLine]]
  exact List.isPrefixOf_iff_prefix.mpr (List.prefix_append _ _)

/-! ## Record extraction from the serialized story lines -/

theorem parseStoryLine_nil : parseStoryLine [] = none := by decide

/-- A metadata block that is opened but never closed is swallowed
silently: the parse behaves as if the input had ended at the opening
delimiter line. -/
theorem parseLines_unclosed (decode : Str → Except Unit MetaMap)
    (uuidGen : Nat → Str) (ls1 ls2 : List Str)
    (h1 : ∀ l ∈ ls1, trimSpace l ≠ delimStr)
    (h2 : ∀ l ∈ ls2, trimSpace l ≠ delimStr) :
    parseLines decode uuidGen (ls1 ++ delimStr :: ls2) =
      parseLines decode uuidGen ls1 := by
  have hrun1 : processLines decode initState ls1 =
      .ok ⟨false, [], [], List.foldl coreStep ⟨false, [], []⟩ ls1⟩ :=
    processLines_nodelim decode initState ls1 rfl h1
  have hdel : processLines decode
      (⟨false, [], [], List.foldl coreStep ⟨false, [], []⟩ ls1⟩ : ParseState)
      [delimStr] =
      .ok ⟨true, [], [], List.foldl coreStep ⟨false, [], []⟩ ls1⟩ := by
    show (match processLine decode
        (⟨false, [], [], List.foldl coreStep ⟨false, [], []⟩ ls1⟩ : ParseState)
        delimStr with
      | Except.error e => Except.error e
      | Except.ok st' => processLines decode st' []) = _
    rw [processLine_open decode _ delimStr trimSpace_delimStr rfl]
    rfl
  have hrun : processLines decode initState (ls1 ++ delimStr :: ls2) =
      .ok ⟨true, [] ++ joinNlTerm ls2, [],
        List.foldl coreStep ⟨false, [], []⟩ ls1⟩ := by
    rw [show ls1 ++ delimStr :: ls2 = ls1 ++ ([delimStr] ++ ls2) from by simp]
    rw [processLines_append, hrun1]
    show processLines decode _ ([delimStr] ++ ls2) = _
    rw [processLines_append, hdel]
    show processLines decode _ ls2 = _
    exact processLines_buffer decode _ ls2 rfl h2
  rw [parseLines, parseLines, hrun, hrun1]

/-- The first delimiter line anywhere in the document opens a metadata
block; the block's lines are decoded as the metadata and excluded from
summary and record processing, and the rest of the document parses as if
the block were absent. -/
theorem parseLines_metaBlock (decode : Str → Except Unit MetaMap)
    (uuidGen : Nat → Str) (pre mid post : List Str)
    (hpre : ∀ l ∈ pre, trimSpace l ≠ delimStr)
    (hmid : ∀ l ∈ mid, trimSpace l ≠ delimStr)
    (hpost : ∀ l ∈ post, trimSpace l ≠ delimStr) :
    parseLines decode uuidGen
      (pre ++ ([delimStr] ++ mid ++ ([delimStr] ++ post))) =
      (match decode (joinNlTerm mid) with
      | .error e => .error e
      | .ok m => (parseLines decode uuidGen (pre ++ post)).map
          (fun doc => ⟨m, doc.Summary, doc.Stories⟩)) := by
  have hrun1 : processLines decode initState pre =
      .ok ⟨false, [], [], List.foldl coreStep ⟨false, [], []⟩ pre⟩ :=
    processLines_nodelim decode initState pre rfl hpre
  have hdel1 : processLines decode
      (⟨false, [], [], List.foldl coreStep ⟨false, [], []⟩ pre⟩ : ParseState)
      [delimStr] =
      .ok ⟨true, [], [], List.foldl coreStep ⟨false, [], []⟩ pre⟩ := by
    show (match processLine decode
        (⟨false, [], [], List.foldl coreStep ⟨false, [], []⟩ pre⟩ : ParseState)
        delimStr with
      | Except.error e => Except.error e
      | Except.ok st' => processLines decode st' []) = _
    rw [processLine_open decode _ delimStr trimSpace_delimStr rfl]
    rfl
  have hmidrun : processLines decode
      (⟨true, [], [], List.foldl coreStep ⟨false, [], []⟩ pre⟩ : ParseState)
      mid =
      .ok ⟨true, [] ++ joinNlTerm mid, [],
        List.foldl coreStep ⟨false, [], []⟩ pre⟩ :=
    processLines_buffer decode _ mid rfl hmid
  rw [show pre ++ ([delimStr] ++ mid ++ ([delimStr] ++ post)) =
    pre ++ ([delimStr] ++ (mid ++ ([delimStr] ++ post))) from by simp]
  cases hdec : decode (joinNlTerm mid) with
  | error e =>
    have hdel2 : processLines decode
        (⟨true, [] ++ joinNlTerm mid, [],
          List.foldl coreStep ⟨false, [], []⟩ pre⟩ : ParseState)
        [delimStr] = .error e := by
      show (match processLine decode
          (⟨true, [] ++ joinNlTerm mid, [],
            List.foldl coreStep ⟨false, [], []⟩ pre⟩ : ParseState)
          delimStr with
        | Except.error e => Except.error e
        | Except.ok st' => processLines decode st' []) = _
      have : processLine decode
          (⟨true, [] ++ joinNlTerm mid, [],
            List.foldl coreStep ⟨false, [], []⟩ pre⟩ : ParseState)
          delimStr = .error e := by
        simp [processLine, trimSpace_delimStr, hdec]
      rw [this]
    rw [parseLines]
    rw [processLines_append, hrun1]
    show (match processLines decode _ ([delimStr] ++ (mid ++ ([delimStr] ++ post))) with
      | Except.error e => Except.error e
      | Except.ok st =>
        Except.ok (⟨st.metadata, trimSpace st.core.summaryBuilder,
          mkStories uuidGen (st.core.storyContentLines.filterMap
            parseStoryLine)⟩ : MarkdownFile)) = _
    rw [processLines_append, hdel1]
    show (match processLines decode _ (mid ++ ([delimStr] ++ post)) with
      | Except.error e => Except.error e
      | Except.ok st =>
        Except.ok (⟨st.metadata, trimSpace st.core.summaryBuilder,
          mkStories uuidGen (st.core.storyContentLines.filterMap
            parseStoryLine)⟩ : MarkdownFile)) = _
    rw [processLines_append, hmidrun]
    show (match processLines decode _ ([delimStr] ++ post) with
      | Except.error e => Except.error e
      | Except.ok st =>
        Except.ok (⟨st.metadata, trimSpace st.core.summaryBuilder,
          mkStories uuidGen (st.core.storyContentLines.filterMap
            parseStoryLine)⟩ : MarkdownFile)) = _
    rw [processLines_append, hdel2]
  | ok m =>
    have hdel2 : processLines decode
        (⟨true, [] ++ joinNlTerm mid, [],
          List.foldl coreStep ⟨false, [], []⟩ pre⟩ : ParseState)
        [delimStr] =
        .ok ⟨false, [] ++ joinNlTerm mid, m,
          List.foldl coreStep ⟨false, [], []⟩ pre⟩ := by
      show (match processLine decode
          (⟨true, [] ++ joinNlTerm mid, [],
            List.foldl coreStep ⟨false, [], []⟩ pre⟩ : ParseState)
          delimStr with
        | Except.error e => Except.error e
        | Except.ok st' => processLines decode st' []) = _
      rw [processLine_close decode _ delimStr trimSpace_delimStr rfl hdec]
      rfl
    have hpostrun : processLines decode
        (⟨false, [] ++ joinNlTerm mid, m,
          List.foldl coreStep ⟨false, [], []⟩ pre⟩ : ParseState) post =
        .ok ⟨false, [] ++ joinNlTerm mid, m,
          List.foldl coreStep
            (List.foldl coreStep ⟨false, [], []⟩ pre) post⟩ :=
      processLines_nodelim decode _ post rfl hpost
  -- assemble the full run
    have hrun : processLines decode initState
        (pre ++ ([delimStr] ++ (mid ++ ([delimStr] ++ post)))) =
        .ok ⟨false, [] ++ joinNlTerm mid, m,
          List.foldl coreStep
            (List.foldl coreStep ⟨false, [], []⟩ pre) post⟩ := by
      rw [processLines_append, hrun1]
      show processLines decode _ ([delimStr] ++ (mid ++ ([delimStr] ++ post))) = _
      rw [processLines_append, hdel1]
      show processLines decode _ (mid ++ ([delimStr] ++ post)) = _
      rw [processLines_append, hmidrun]
      show processLines decode _ ([delimStr] ++ post) = _
      rw [processLines_append, hdel2]
      show processLines decode _ post = _
      exact hpostrun
    have hrun2 : processLines decode initState (pre ++ post) =
        .ok ⟨false, [], [],
          List.foldl coreStep
            (List.foldl coreStep ⟨false, [], []⟩ pre) post⟩ := by
      rw [processLines_nodelim decode initState (pre ++ post) rfl ?hall]
      case hall =>
        intro l hl
        rcases List.mem_append.mp hl with h | h
        · exact hpre l h
        · exact hpost l h
      rw [List.foldl_append]
      rfl
    rw [parseLines, parseLines, hrun, hrun2]
    rfl

/-! ## The code's record-line condition versus the claim's condition -/

theorem drop_length_sub_one {l : Str} (h : l ≠ []) :
    l.drop (l.length - 1) = [l.getLast h] := by
  have h2 : l.dropLast ++ [l.getLast h] = l := List.dropLast_append_getLast h
  have h3 := List.drop_left l.dropLast [l.getLast h]
  rw [h2] at h3
  rw [List.length_dropLast] at h3
  exact h3

theorem lastIndexOf_rbracket_of_last {content : Str}
    (hne : content ≠ []) (hl : content.getLast? = some ']') :
    lastIndexOf [']'] content = some (content.length - 1) := by
  have h1 : content.getLast hne = ']' := by
    rw [List.getLast?_eq_getLast _ hne] at hl
    exact Option.some.inj hl
  have h2 : content = content.dropLast ++ [']'] := by
    conv_lhs => rw [← List.dropLast_append_getLast hne]
    rw [h1]
  rw [h2, lastIndexOf_rbracket_concat]
  congr 1
  rw [List.length_append, List.length_dropLast]
  rw [h2]
  simp

theorem rbracket_last_of_lastIndexOf {content : Str} {ce : Nat}
    (h : lastIndexOf [']'] content = some ce)
    (hce : ce = content.length - 1) :
    content ≠ [] ∧ content.getLast? = some ']' := by
  have hne : content ≠ [] := by
    intro he
    subst he
    simp [lastIndexOf] at h
  refine ⟨hne, ?_⟩
  have h1 := lastIndexOf_isPrefixOf h
  rw [hce, drop_length_sub_one hne] at h1
  have h2 : (']' : Char) = content.getLast hne := by
    have : ([']'] : Str).isPrefixOf [content.getLast hne] = true := h1
    cases h3 : (']' == content.getLast hne) with
    | true => exact beq_iff_eq.mp h3
    | false =>
      exfalso
      have h4 : ([']'] : Str).isPrefixOf [content.getLast hne] =
          ((']' == content.getLast hne) && true) := rfl
      rw [h4, h3] at this
      simp at this
  rw [List.getLast?_eq_getLast _ hne, ← h2]

/-! ## Association-list lemmas for the repository -/

theorem lookupProj_insertProj_same (m : List (Str × Project)) (id : Str)
    (p : Project) : lookupProj (insertProj m id p) id = some p := by
  induction m with
  | nil => simp [insertProj, lookupProj]
  | cons kv t ih =>
    obtain ⟨k, v⟩ := kv
    by_cases hk : k = id
    · subst hk
      simp [insertProj, lookupProj]
    · simp [insertProj, lookupProj, hk, ih]

theorem lookupProj_insertProj_other (m : List (Str × Project)) (id id' : Str)
    (p : Project) (h : id' ≠ id) :
    lookupProj (insertProj m id p) id' = lookupProj m id' := by
  induction m with
  | nil =>
    have : ¬ id = id' := fun he => h he.symm
    simp [insertProj, lookupProj, this]
  | cons kv t ih =>
    obtain ⟨k, v⟩ := kv
    by_cases hk : k = id
    · subst hk
      have : ¬ k = id' := fun he => h he.symm
      simp [insertProj, lookupProj, this]
    · by_cases hk' : k = id'
      · subst hk'
        simp [insertProj, lookupProj, hk]
      · simp [insertProj, lookupProj, hk, hk', ih]

theorem lookupProjRef_mem_values (m : List (Str × ProjectRef)) (id : Str)
    (p : ProjectRef) (h : lookupProjRef m id = some p) :
    p ∈ m.map (·.2) := by
  induction m with
  | nil => cases h
  | cons kv t ih =>
    obtain ⟨k, v⟩ := kv
    by_cases hk : k = id
    · subst hk
      simp only [lookupProjRef, if_pos rfl] at h
      rw [List.map_cons]
      exact Option.some.inj h ▸ List.mem_cons_self _ _
    · simp only [lookupProjRef, if_neg hk] at h
      rw [List.map_cons]
      exact List.mem_cons_of_mem _ (ih h)

theorem getD_set_self (heap : List (List UserStory)) (h : Nat)
    (v : List UserStory) (hlt : h < heap.length) :
    (heap.set h v).getD h [] = v := by
  induction heap generalizing h with
  | nil => simp at hlt
  | cons a t ih =>
    cases h with
    | zero => rfl
    | succ h' =>
      simp only [List.set_cons_succ]
      show (t.set h' v).getD h' [] = v
      exact ih h' (by simpa using hlt)

theorem readStories_writeStoryAt (r : RefRepo) (h i : Nat) (v : UserStory) :
    readStories (writeStoryAt r h i v) h = (readStories r h).set i v := by
  rw [readStories, writeStoryAt, readStories]
  by_cases hlt : h < r.heap.length
  · exact getD_set_self r.heap h _ hlt
  · have h1 : r.heap.set h ((r.heap.getD h []).set i v) = r.heap :=
      List.set_eq_of_length_le (by omega)
    rw [h1]
    have h2 : r.heap.getD h [] = [] := by
      rw [List.getD_eq_getElem?_getD, List.getElem?_eq_none (by omega)]
      rfl
    rw [h2]
    rfl

/-! ## Claim theorems -/

/-- C1 (counterexample): after an upsert with no intervening tick,
`StopAutoSave` leaves the backing file unchanged, so the file content is
NOT the serialization of the store's current aggregate map — contrary to
the claim that stop performs one final synchronous flush. -/
theorem c1_counterexample :
    StopAutoSave (StoreProject exProj ⟨[], [], true⟩).1 =
      ⟨[(exProj.ID, exProj)], [], false⟩ ∧
    (StopAutoSave (StoreProject exProj ⟨[], [], true⟩).1).fileProjects ≠
      projectValues
        (StopAutoSave (StoreProject exProj ⟨[], [], true⟩).1).projects := by
  constructor
  · decide
  · decide

/-- C1 (amended): the stop signal cancels the periodic timer but performs
NO final flush: `StopAutoSave` leaves both the in-memory map and the
backing file exactly as they were; only a ticker firing (`autoSaveTick` on
an active ticker) writes the serialization of the current map to the
file. -/
theorem c1_stop_no_flush (r : JsonRepo) :
    (StopAutoSave r).fileProjects = r.fileProjects ∧
    (StopAutoSave r).projects = r.projects ∧
    (StopAutoSave r).tickerActive = false ∧
    (autoSaveTick { r with tickerActive := true }).fileProjects =
      projectValues r.projects := by
  refine ⟨rfl, rfl, rfl, ?_⟩
  rw [autoSaveTick, if_pos rfl]
  rfl

/-- C2 (counterexample): on the two-story list whose categories appear in
the order `"B"`, `"A"`, the codec serializer emits the groups in
first-appearance order `"B"`, `"A"`, NOT sorted lexicographically
ascending as the claim asserts of `Serialize`. -/
theorem c2_counterexample :
    splitNl (storiesChunk c2Stories) = storyLinesOf c2Stories ++ [[]] ∧
    storyLinesOf c2Stories ≠ claimSortedStoryLines c2Stories := by
  constructor
  · decide
  · decide

/-- C2 (amended): the codec serializer (`WriteToFile`) emits the groups in
FIRST-APPEARANCE order with members in input order; lexicographic sorting
of the group headers happens only in the application-level writer
(`WriteUserStoriesToFile`), whose output ranges over the sorted distinct
labels, again with members in input order. -/
theorem c2_group_order (stories : List UserStory) (hne : stories ≠ [])
    (hst : ∀ s ∈ stories, '\n' ∉ s.Description ∧ '\n' ∉ s.Category) :
    splitNl (storiesChunk stories) = storyLinesOf stories ++ [[]] ∧
    serviceStoriesChunk stories =
      (sortStrs (firstAppear (catKeys stories))).flatMap (fun c =>
        headerLine c ++ ['\n'] ++
          joinNlTerm ((stories.filter
            (fun s => normCat s.Category = c)).map serviceBulletLine) ++
          ['\n']) ∧
    SortedStr (sortStrs (firstAppear (catKeys stories))) ∧
    List.Perm (sortStrs (firstAppear (catKeys stories)))
      (firstAppear (catKeys stories)) := by
  refine ⟨?_, ?_, sortStrs_sorted _, sortStrs_perm _⟩
  · have h := splitNl_storiesChunk_append stories [] hst
    rw [List.append_nil] at h
    exact h
  · rw [serviceStoriesChunk]
    have hlen : stories.length > 0 := by
      cases stories with
      | nil => exact absurd rfl hne
      | cons a t => simp
    rw [if_pos hlen]
    show (sortStrs (groupStories stories).1).flatMap _ = _
    rw [groupStories_order]
    apply flatMap_congr_mem
    intro c hc
    rw [groupStories_lookup stories c
      (mem_firstAppear.mp (mem_sortStrs.mp hc))]
    rfl

/-- Witness for C2's amended theorem at the concrete two-story list. -/
theorem c2_group_order_witness :
    c2Stories ≠ [] ∧
    (∀ s ∈ c2Stories, '\n' ∉ s.Description ∧ '\n' ∉ s.Category) ∧
    splitNl (storiesChunk c2Stories) = storyLinesOf c2Stories ++ [[]] ∧
    SortedStr (sortStrs (firstAppear (catKeys c2Stories))) :=
  ⟨by decide, by decide,
    (c2_group_order c2Stories (by decide) (by decide)).1,
    (c2_group_order c2Stories (by decide) (by decide)).2.2.1⟩

/-- C4 (counterexample): on `"---\nx: y"` the metadata block is opened and
never closed, and the parse SUCCEEDS with an empty document instead of
failing with a metadata syntax error as the claim asserts. -/
theorem c4_counterexample :
    ParseMarkdownFileContent decModel uuidModel c4Input =
      Except.ok ⟨[], [], []⟩ := by
  rfl

/-- C4 (amended): a metadata block opened but never closed is swallowed
silently: for any decoder, the parse of `ls1 ++ ["---"] ++ ls2` (with no
other delimiter lines) succeeds and returns exactly the document parsed
from `ls1` alone — metadata stays empty, the buffered lines yield no
records, and no error is reported. -/
theorem c4_unclosed_block_silent (decode : Str → Except Unit MetaMap)
    (uuidGen : Nat → Str) (ls1 ls2 : List Str)
    (h1 : ∀ l ∈ ls1, trimSpace l ≠ delimStr)
    (h2 : ∀ l ∈ ls2, trimSpace l ≠ delimStr) :
    parseLines decode uuidGen (ls1 ++ delimStr :: ls2) =
      parseLines decode uuidGen ls1 :=
  parseLines_unclosed decode uuidGen ls1 ls2 h1 h2

/-- Witness for C4's amended theorem at a concrete input. -/
theorem c4_unclosed_block_silent_witness :
    (∀ l ∈ [bulletStr ++ ('a' :: [])], trimSpace l ≠ delimStr) ∧
    (∀ l ∈ [('x' :: [' '])], trimSpace l ≠ delimStr) ∧
    parseLines decModel uuidModel
      ([bulletStr ++ ('a' :: [])] ++ delimStr :: [('x' :: [' '])]) =
      parseLines decModel uuidModel [bulletStr ++ ('a' :: [])] :=
  ⟨by decide, by decide,
    c4_unclosed_block_silent decModel uuidModel _ _ (by decide) (by decide)⟩

/-- C5 (counterexample): in `"- a\n---\n- b"` the delimiter line is not
the first line of the document, yet it DOES open a metadata block: the
line `"- b"` is swallowed into the (unclosed) block and yields no record,
so the parse returns a single story, not the two the claim implies. -/
theorem c5_counterexample :
    ParseMarkdownFileContent decModel uuidModel c5Input =
      Except.ok ⟨[], [], [⟨('0' :: []), ('a' :: []), uncategorizedStr⟩]⟩ ∧
    [( ('a' :: [] : Str), uncategorizedStr)] ≠
      [( ('a' :: [] : Str), uncategorizedStr),
       ( ('b' :: [] : Str), uncategorizedStr)] := by
  constructor
  · rfl
  · decide

/-- C5 (amended): the FIRST delimiter line anywhere in the document — not
only at the start — opens a metadata block: the lines up to the next
delimiter line are decoded as the metadata mapping and excluded from
summary and record processing, and the document otherwise parses exactly
as if the block were removed. -/
theorem c5_first_delim_opens_block (decode : Str → Except Unit MetaMap)
    (uuidGen : Nat → Str) (pre mid post : List Str)
    (hpre : ∀ l ∈ pre, trimSpace l ≠ delimStr)
    (hmid : ∀ l ∈ mid, trimSpace l ≠ delimStr)
    (hpost : ∀ l ∈ post, trimSpace l ≠ delimStr) :
    parseLines decode uuidGen
      (pre ++ ([delimStr] ++ mid ++ ([delimStr] ++ post))) =
      (match decode (joinNlTerm mid) with
      | .error e => .error e
      | .ok m => (parseLines decode uuidGen (pre ++ post)).map
          (fun doc => ⟨m, doc.Summary, doc.Stories⟩)) :=
  parseLines_metaBlock decode uuidGen pre mid post hpre hmid hpost

/-- Witness for C5's amended theorem at a concrete input. -/
theorem c5_first_delim_opens_block_witness :
    (∀ l ∈ [bulletStr ++ ('a' :: [])], trimSpace l ≠ delimStr) ∧
    (∀ l ∈ [('k' :: ':' :: ' ' :: 'v' :: [])], trimSpace l ≠ delimStr) ∧
    (∀ l ∈ [bulletStr ++ ('b' :: [])], trimSpace l ≠ delimStr) ∧
    parseLines decModel uuidModel
      ([bulletStr ++ ('a' :: [])] ++
        ([delimStr] ++ [('k' :: ':' :: ' ' :: 'v' :: [])] ++
          ([delimStr] ++ [bulletStr ++ ('b' :: [])]))) =
      (match decModel (joinNlTerm [('k' :: ':' :: ' ' :: 'v' :: [])]) with
      | .error e => .error e
      | .ok m => (parseLines decModel uuidModel
          ([bulletStr ++ ('a' :: [])] ++ [bulletStr ++ ('b' :: [])])).map
          (fun doc => ⟨m, doc.Summary, doc.Stories⟩)) :=
  ⟨by decide, by decide, by decide,
    c5_first_delim_opens_block decModel uuidModel _ _ _
      (by decide) (by decide) (by decide)⟩

/-- C6: a line whose trimmed form starts with `"- "` always yields exactly
one record from its payload (the trimmed line minus the two-character
bullet): if the payload's very last character is `']'` and the payload
contains `"[Category: "`, the text between the LAST `"[Category: "` and
that final `']'` becomes the category and the trimmed text before the tag
the description; in every other case (including a tag not at line end) the
whole payload is the description and the category is `"Uncategorized"`;
and a document consisting of that single line parses to exactly that one
record. -/
theorem c6_bullet_line (line : Str)
    (h : bulletStr.isPrefixOf (trimSpace line) = true) :
    (((trimSpace line).drop 2).getLast? = some ']' ∧
        containsSub catTag ((trimSpace line).drop 2) = true →
      ∃ j, lastIndexOf catTag ((trimSpace line).drop 2) = some j ∧
        parseStoryLine line = some
          (trimSpace (((trimSpace line).drop 2).take j),
            substrRange ((trimSpace line).drop 2) (j + catTag.length)
              (((trimSpace line).drop 2).length - 1))) ∧
    (¬(((trimSpace line).drop 2).getLast? = some ']' ∧
        containsSub catTag ((trimSpace line).drop 2) = true) →
      parseStoryLine line =
        some ((trimSpace line).drop 2, uncategorizedStr)) ∧
    ∀ decode uuidGen, ∃ r,
      parseStoryLine line = some r ∧
      parseLines decode uuidGen [line] =
        Except.ok ⟨[], [], [⟨uuidGen 0, r.1, r.2⟩]⟩ := by
  have hnd : trimSpace line ≠ delimStr := by
    intro he
    rw [he] at h
    exact absurd h (by decide)
  obtain ⟨rest, hrest⟩ := List.isPrefixOf_iff_prefix.mp h
  have hns : summaryHeaderStr.isPrefixOf (trimSpace line) = false := by
    rw [← hrest]
    rw [show (bulletStr ++ rest : Str) = '-' :: ' ' :: rest from rfl]
    rw [show (summaryHeaderStr : Str) = '#' :: " Summary".toList from rfl]
    exact not_isPrefixOf_of_head _ _ (by decide)
  have hps : parseStoryLine line =
      (match lastIndexOf catTag ((trimSpace line).drop 2),
          lastIndexOf [']'] ((trimSpace line).drop 2) with
      | some catStart, some catEnd =>
        if catStart < catEnd ∧
            catEnd = ((trimSpace line).drop 2).length - 1 then
          some (trimSpace (((trimSpace line).drop 2).take catStart),
            substrRange ((trimSpace line).drop 2)
              (catStart + catTag.length) catEnd)
        else some ((trimSpace line).drop 2, uncategorizedStr)
      | _, _ => some ((trimSpace line).drop 2, uncategorizedStr)) := by
    simp only [parseStoryLine]
    rw [if_pos h]
  have part1 : ((trimSpace line).drop 2).getLast? = some ']' ∧
      containsSub catTag ((trimSpace line).drop 2) = true →
      ∃ j, lastIndexOf catTag ((trimSpace line).drop 2) = some j ∧
        parseStoryLine line = some
          (trimSpace (((trimSpace line).drop 2).take j),
            substrRange ((trimSpace line).drop 2) (j + catTag.length)
              (((trimSpace line).drop 2).length - 1)) := by
    rintro ⟨hl, hc⟩
    obtain ⟨j, hj⟩ :=
      Option.isSome_iff_exists.mp (containsSub_iff_lastIndexOf.mp hc)
    refine ⟨j, hj, ?_⟩
    have hne : (trimSpace line).drop 2 ≠ [] := by
      intro he
      rw [he] at hl
      simp at hl
    have hrb := lastIndexOf_rbracket_of_last hne hl
    have hlen := lastIndexOf_add_length_le catTag_ne_nil hj
    rw [catTag_length] at hlen
    rw [hps, hj, hrb]
    show (if j < ((trimSpace line).drop 2).length - 1 ∧
        ((trimSpace line).drop 2).length - 1 =
          ((trimSpace line).drop 2).length - 1 then _ else _) = _
    rw [if_pos ⟨by omega, rfl⟩]
  have part2 : ¬(((trimSpace line).drop 2).getLast? = some ']' ∧
      containsSub catTag ((trimSpace line).drop 2) = true) →
      parseStoryLine line =
        some ((trimSpace line).drop 2, uncategorizedStr) := by
    intro hn
    rw [hps]
    cases hkt : lastIndexOf catTag ((trimSpace line).drop 2) with
    | none =>
      cases lastIndexOf [']'] ((trimSpace line).drop 2) with
      | none => rfl
      | some ce => rfl
    | some j =>
      have hc : containsSub catTag ((trimSpace line).drop 2) = true := by
        rw [containsSub_iff_lastIndexOf, hkt]
        rfl
      have hl : ¬ ((trimSpace line).drop 2).getLast? = some ']' :=
        fun hl => hn ⟨hl, hc⟩
      cases hre : lastIndexOf [']'] ((trimSpace line).drop 2) with
      | none => rfl
      | some ce =>
        have hcond : ¬ (j < ce ∧
            ce = ((trimSpace line).drop 2).length - 1) := by
          rintro ⟨_, hceq⟩
          exact hl (rbracket_last_of_lastIndexOf hre hceq).2
        show (if j < ce ∧
            ce = ((trimSpace line).drop 2).length - 1 then _ else _) = _
        rw [if_neg hcond]
  have hex : ∃ r, parseStoryLine line = some r := by
    by_cases hcase : ((trimSpace line).drop 2).getLast? = some ']' ∧
        containsSub catTag ((trimSpace line).drop 2) = true
    · obtain ⟨j, _, hp⟩ := part1 hcase
      exact ⟨_, hp⟩
    · exact ⟨_, part2 hcase⟩
  refine ⟨part1, part2, ?_⟩
  intro decode uuidGen
  obtain ⟨r, hr⟩ := hex
  refine ⟨r, hr, ?_⟩
  have hst' : processLines decode initState [line] =
      .ok ⟨false, [], [], ⟨false, [], [line]⟩⟩ := by
    rw [processLines_nodelim decode initState [line] rfl ?_]
    · show Except.ok
        (⟨false, [], [], coreStep ⟨false, [], []⟩ line⟩ : ParseState) = _
      rw [coreStep_plain _ line rfl hns]
      rfl
    · intro l hl
      rw [List.mem_singleton] at hl
      rw [hl]
      exact hnd
  rw [parseLines, hst']
  show Except.ok (⟨[], trimSpace [],
      mkStories uuidGen ([line].filterMap parseStoryLine)⟩ :
      MarkdownFile) = _
  rw [List.filterMap_cons_some hr]
  rfl

/-- Witness for C6 at the spec's own malformed-tag example, whose tag is
not at line end: the whole payload becomes the description. -/
theorem c6_bullet_line_witness :
    bulletStr.isPrefixOf (trimSpace ("- Do X [Category: Y] extra".toList))
        = true ∧
    ¬((trimSpace ("- Do X [Category: Y] extra".toList)).drop 2).getLast? =
        some ']' ∧
    parseStoryLine ("- Do X [Category: Y] extra".toList) =
      some ((trimSpace ("- Do X [Category: Y] extra".toList)).drop 2,
        uncategorizedStr) :=
  ⟨by decide, by decide,
    (c6_bullet_line ("- Do X [Category: Y] extra".toList)
      (by decide)).2.1 (by decide)⟩

/-- C7: store construction reads the backing file once; an absent file and
an empty file both yield an empty store (an empty `GetProjects`), and a
non-empty file the decoder rejects makes construction fail with the
corrupt-snapshot error, producing no store. -/
theorem c7_construction (decode : Str → Option (List Project)) :
    (NewJsonUserStoryRepository decode none = Except.ok ⟨[], [], true⟩ ∧
      GetProjects ⟨[], [], true⟩ = []) ∧
    NewJsonUserStoryRepository decode (some []) = Except.ok ⟨[], [], true⟩ ∧
    ∀ bytes : Str, bytes ≠ [] → decode bytes = none →
      NewJsonUserStoryRepository decode (some bytes) =
        Except.error RepoError.corruptSnapshot := by
  refine ⟨⟨rfl, rfl⟩, rfl, ?_⟩
  intro bytes hb hdec
  rw [NewJsonUserStoryRepository, if_neg hb, hdec]

/-- Witness for C7 at a concrete decoder and file content. -/
theorem c7_construction_witness :
    (NewJsonUserStoryRepository (fun _ => none) none =
        Except.ok ⟨[], [], true⟩ ∧
      GetProjects ⟨[], [], true⟩ = []) ∧
    NewJsonUserStoryRepository (fun _ => none) (some []) =
      Except.ok ⟨[], [], true⟩ ∧
    (('x' :: [] : Str) ≠ [] ∧
      NewJsonUserStoryRepository (fun _ => none) (some ('x' :: [])) =
        Except.error RepoError.corruptSnapshot) := by
  have h := c7_construction (fun _ => none)
  exact ⟨h.1, h.2.1, by decide, h.2.2 ('x' :: []) (by decide) rfl⟩

/-- C8: `StoreProject` fails with the invalid-aggregate error exactly when
the identifier is empty; a failed call leaves the map (and thus
`GetProjects`) unchanged, and a successful call wholesale-replaces the
entry under that identifier while leaving every other key unchanged. -/
theorem c8_upsert (r : JsonRepo) (p : Project) :
    ((StoreProject p r).2 = some RepoError.invalidAggregate ↔ p.ID = []) ∧
    (p.ID = [] → (StoreProject p r).1 = r ∧
      GetProjects (StoreProject p r).1 = GetProjects r) ∧
    (p.ID ≠ [] → (StoreProject p r).2 = none ∧
      lookupProj (StoreProject p r).1.projects p.ID = some p ∧
      ∀ id, id ≠ p.ID →
        lookupProj (StoreProject p r).1.projects id =
          lookupProj r.projects id) := by
  by_cases hid : p.ID = []
  · rw [StoreProject, if_pos hid]
    exact ⟨⟨fun _ => hid, fun _ => rfl⟩,
      fun _ => ⟨rfl, rfl⟩, fun h => absurd hid h⟩
  · rw [StoreProject, if_neg hid]
    refine ⟨⟨(fun h => by cases h), fun h => absurd h hid⟩,
      fun h => absurd h hid, fun _ => ⟨rfl, ?_, ?_⟩⟩
    · exact lookupProj_insertProj_same r.projects p.ID p
    · intro id hne
      exact lookupProj_insertProj_other r.projects p.ID id p hne

/-- Witness for C8: the empty-identifier upsert is rejected and leaves the
store unchanged; a non-empty identifier succeeds. -/
theorem c8_upsert_witness :
    (StoreProject ⟨[], ('n' :: []), [], []⟩ ⟨[], [], true⟩).2 =
      some RepoError.invalidAggregate ∧
    GetProjects (StoreProject ⟨[], ('n' :: []), [], []⟩ ⟨[], [], true⟩).1 =
      GetProjects ⟨[], [], true⟩ ∧
    lookupProj (StoreProject exProj ⟨[], [], true⟩).1.projects exProj.ID =
      some exProj := by
  refine ⟨?_, ?_, ?_⟩
  · exact (c8_upsert ⟨[], [], true⟩ ⟨[], ('n' :: []), [], []⟩).1.mpr rfl
  · exact ((c8_upsert ⟨[], [], true⟩ ⟨[], ('n' :: []), [], []⟩).2.1 rfl).2
  · exact ((c8_upsert ⟨[], [], true⟩ exProj).2.2 (by decide)).2.1

/-- C9 (counterexample): `GetProjects` copies the project structs, but the
nested story slice is shared: an in-place element assignment through the
returned copy's story slice changes what the store's own copy observes —
contrary to the claim that the result is a (deep) snapshot. -/
theorem c9_counterexample :
    refGetProjects exRefRepo = [exProjRef] ∧
    readStories exRefRepo exProjRef.storiesRef = [exStoryA] ∧
    readStories (writeStoryAt exRefRepo exProjRef.storiesRef 0 exStoryB)
      exProjRef.storiesRef = [exStoryB] ∧
    refGetProjectByID ('p' :: '1' :: [])
      (writeStoryAt exRefRepo exProjRef.storiesRef 0 exStoryB) =
      Except.ok exProjRef ∧
    ([exStoryB] : List UserStory) ≠ [exStoryA] := by
  refine ⟨by decide, by decide, by decide, by rfl, by decide⟩

/-- C9 (amended): the sequence returned by `GetProjects` is a fresh
top-level copy — writing through a returned element's story slice does not
touch the store's key-to-project map — but the nested story slices are
shared by reference: the stored project and the returned copy carry the
same slice handle, so an in-place element write through the returned copy
is observed by subsequent store reads of that project's stories. -/
theorem c9_nested_slices_shared (r : RefRepo) (id : Str) (p : ProjectRef)
    (i : Nat) (v : UserStory)
    (h : lookupProjRef r.projects id = some p) :
    p ∈ refGetProjects r ∧
    (writeStoryAt r p.storiesRef i v).projects = r.projects ∧
    readStories (writeStoryAt r p.storiesRef i v) p.storiesRef =
      (readStories r p.storiesRef).set i v ∧
    refGetProjectByID id (writeStoryAt r p.storiesRef i v) =
      Except.ok p := by
  refine ⟨lookupProjRef_mem_values r.projects id p h, rfl,
    readStories_writeStoryAt r p.storiesRef i v, ?_⟩
  rw [refGetProjectByID]
  show (match lookupProjRef r.projects id with
    | some p => Except.ok p
    | none => Except.error RepoError.notFound) = _
  rw [h]

/-- Witness for C9's amended theorem at the concrete store. -/
theorem c9_nested_slices_shared_witness :
    lookupProjRef exRefRepo.projects ('p' :: '1' :: []) = some exProjRef ∧
    (exProjRef ∈ refGetProjects exRefRepo ∧
      (writeStoryAt exRefRepo exProjRef.storiesRef 0 exStoryB).projects =
        exRefRepo.projects ∧
      readStories (writeStoryAt exRefRepo exProjRef.storiesRef 0 exStoryB)
        exProjRef.storiesRef =
        (readStories exRefRepo exProjRef.storiesRef).set 0 exStoryB ∧
      refGetProjectByID ('p' :: '1' :: [])
        (writeStoryAt exRefRepo exProjRef.storiesRef 0 exStoryB) =
        Except.ok exProjRef) :=
  ⟨by decide, c9_nested_slices_shared exRefRepo ('p' :: '1' :: [])
    exProjRef 0 exStoryB (by decide)⟩

/-- C10: a record with an empty category is grouped under the
`"Uncategorized"` header (normalization applies to grouping only), while
its bullet line carries the raw empty category inside the tag, producing
`"- <description> [Category: ]"`; that bullet line appears among the
serializer's story-section lines. -/
theorem c10_empty_category_tag (stories : List UserStory) (s : UserStory)
    (hmem : s ∈ stories) (hempty : s.Category = []) :
    normCat s.Category = uncategorizedStr ∧
    bulletLine s = bulletStr ++ s.Description ++ " [Category: ]".toList ∧
    s ∈ stories.filter (fun x => normCat x.Category = uncategorizedStr) ∧
    bulletLine s ∈ storyLinesOf stories := by
  have hnorm : normCat s.Category = uncategorizedStr := by
    rw [hempty]
    rfl
  have hfilter : s ∈ stories.filter
      (fun x => normCat x.Category = uncategorizedStr) := by
    rw [List.mem_filter]
    exact ⟨hmem, by simp [hnorm]⟩
  refine ⟨hnorm, ?_, hfilter, ?_⟩
  · rw [bulletLine, hempty]
    rw [show (" [Category: ]".toList : Str) = [' '] ++ catTag ++ [']'] from
      by decide]
    simp
  · rw [storyLinesOf, List.mem_flatMap]
    refine ⟨uncategorizedStr, ?_, ?_⟩
    · rw [mem_firstAppear, catKeys, List.mem_map]
      exact ⟨s, hmem, hnorm⟩
    · refine List.mem_cons_of_mem _ (List.mem_append_left _ ?_)
      exact List.mem_map_of_mem bulletLine hfilter

/-- Witness for C10 at a concrete story list. -/
theorem c10_empty_category_tag_witness :
    (⟨('1' :: []), ('a' :: []), []⟩ : UserStory) ∈ c3Doc.Stories ∧
    (normCat (⟨('1' :: []), ('a' :: []), []⟩ : UserStory).Category =
        uncategorizedStr ∧
      bulletLine (⟨('1' :: []), ('a' :: []), []⟩ : UserStory) =
        bulletStr ++ ('a' :: []) ++ " [Category: ]".toList ∧
      (⟨('1' :: []), ('a' :: []), []⟩ : UserStory) ∈ c3Doc.Stories.filter
        (fun x => normCat x.Category = uncategorizedStr) ∧
      bulletLine (⟨('1' :: []), ('a' :: []), []⟩ : UserStory) ∈
        storyLinesOf c3Doc.Stories) :=
  ⟨by decide, c10_empty_category_tag c3Doc.Stories _ (by decide) rfl⟩

end Muserstory
